import Mathlib

/-!
Shallow embedding of `src/main.py` (register-allocator visualisation).

The script builds an in-memory description of register-allocation tables
(an ordered mapping from variable names to link lists and per-register
priority lists) and mutates it through `createLink`,
`addToTableCell` and `allocateRegisterToVariable` while driving a manim
scene.  The manim objects (tables, arrows, animations) carry no further
program state relevant to the data model, so they are dropped here; the
mutable Python state is passed explicitly, and operations that can raise
(`IndexError` on list indices, `KeyError`/`ValueError` on dict keys)
return `Option`.  Python's insertion-ordered `dict` is embedded as an
association list with first-occurrence lookup (`dictGet?`), value update
in place (`dictModify`) and insert-or-overwrite (`dictSet`).
-/

namespace RegAlloc

/-- Source constant `number_of_registers = 4`. -/
def number_of_registers : Nat := 4

/-- Source dataclass `variableReference`: (table index, variable name).  The source stores the
table index as a Python `int`; the program only ever uses indices `0 ≤ i`
within range, so it is embedded as `Nat`. -/
structure variableReference where
  indexOfRegisterAllocationTable : Nat
  nameOfVariableWithinTable : String
deriving DecidableEq

/-- Source dataclass `variableLink`: a link to `variable` with a `strength`.  The manim arrow
field is display-only state and is dropped.  The source field name
`variable` is a Lean keyword, hence the guillemets. -/
structure variableLink where
  «variable» : variableReference
  strength : Int
deriving DecidableEq

/-- Source alias `registerPrioraties: TypeAlias = list[int]`. -/
abbrev registerPrioraties : Type := List Int

/-- Source dataclass `registerPrioratiesAndLinks` with the default
`prioraties = [0,0,0,0,0]`. -/
structure registerPrioratiesAndLinks where
  links : List variableLink
  prioraties : registerPrioraties := [0, 0, 0, 0, 0]
deriving DecidableEq

/-- Source dataclass field `registerAllocationTable.data`,
an insertion-ordered Python dict, embedded as an association list.  The
`backingTable` manim object is dropped. -/
structure registerAllocationTable where
  data : List (String × registerPrioratiesAndLinks)
deriving DecidableEq

/-- Source dataclass field `registerAllocationGraph.tables`; the manim `scene` is dropped. -/
structure registerAllocationGraph where
  tables : List registerAllocationTable
deriving DecidableEq

/-! ### Python dict / list primitives -/

/-- Lookup of a key in a Python dict (`data[k]`, or `k in data.keys()` when
only presence matters): first occurrence wins. -/
def dictGet? {α : Type} : List (String × α) → String → Option α
  | [], _ => none
  | (k', v) :: d, k => if k' = k then some v else dictGet? d k

/-- In-place update of the value stored under a key (`data[k].field = ...`
in the source mutates the stored object); a missing key leaves the dict
unchanged (the embedding only applies it under a successful lookup). -/
def dictModify {α : Type} : List (String × α) → String → (α → α) → List (String × α)
  | [], _, _ => []
  | (k', v) :: d, k, f => if k' = k then (k', f v) :: d else (k', v) :: dictModify d k f

/-- Assignment `data[k] = v` on a Python dict: overwrite in place if the key exists,
otherwise append preserving insertion order. -/
def dictSet {α : Type} : List (String × α) → String → α → List (String × α)
  | [], k, v => [(k, v)]
  | (k', v') :: d, k, v => if k' = k then (k, v) :: d else (k', v') :: dictSet d k v

/-- In-place update of a Python list element (`l[i] = ...` / `l[i] += ...`);
out-of-range indices leave the list unchanged (the embedding only applies
it under a successful bounds check). -/
def listModify {α : Type} : List α → Nat → (α → α) → List α
  | [], _, _ => []
  | a :: l, 0, f => f a :: l
  | a :: l, i + 1, f => a :: listModify l i f

theorem dictGet?_dictModify {α : Type} (d : List (String × α)) (k k' : String) (f : α → α) :
    dictGet? (dictModify d k f) k' =
      if k = k' then (dictGet? d k').map f else dictGet? d k' := by
  induction d with
  | nil => simp [dictGet?, dictModify]
  | cons kv d ih =>
    obtain ⟨k₀, v₀⟩ := kv
    by_cases h0 : k₀ = k
    · subst h0
      by_cases h1 : k₀ = k'
      · subst h1; simp [dictGet?, dictModify]
      · simp [dictGet?, dictModify, h1]
    · by_cases h1 : k₀ = k'
      · subst h1
        simp only [dictModify, if_neg h0, dictGet?, if_pos rfl]
        have : ¬ k = k₀ := fun h => h0 h.symm
        simp [this]
      · simp [dictGet?, dictModify, h0, h1, ih]

theorem dictGet?_some_mem {α : Type} {d : List (String × α)} {k : String} {v : α}
    (h : dictGet? d k = some v) : (k, v) ∈ d := by
  induction d with
  | nil => simp [dictGet?] at h
  | cons kv d ih =>
    obtain ⟨k₀, v₀⟩ := kv
    by_cases h0 : k₀ = k
    · subst h0
      simp only [dictGet?, if_pos rfl] at h
      cases h
      exact List.mem_cons_self _ _
    · simp only [dictGet?, if_neg h0] at h
      exact List.mem_cons_of_mem _ (ih h)

theorem listModify_getElem? {α : Type} (l : List α) (i j : Nat) (f : α → α) :
    (listModify l i f)[j]? = if i = j then (l[j]?).map f else l[j]? := by
  induction l generalizing i j with
  | nil => simp [listModify]
  | cons a l ih =>
    cases i with
    | zero =>
      cases j with
      | zero => simp [listModify]
      | succ j => simp [listModify]
    | succ i =>
      cases j with
      | zero => simp [listModify]
      | succ j =>
        simp only [listModify, List.getElem?_cons_succ, ih]
        by_cases h : i = j
        · simp [h]
        · simp [h, fun hc => h (Nat.succ_injective hc)]

theorem listModify_length {α : Type} (l : List α) (i : Nat) (f : α → α) :
    (listModify l i f).length = l.length := by
  induction l generalizing i with
  | nil => simp [listModify]
  | cons a l ih =>
    cases i with
    | zero => simp [listModify]
    | succ i => simp [listModify, ih]

/-! ### Reading and updating rows

`getRowFromVarRef` returns the data half of the source function (the manim
row object is dropped): `graph.tables[i]` (IndexError when out of range)
followed by `list(table.data.keys()).index(name)` / `table.data[name]`
(ValueError/KeyError when the name is absent), i.e. `none` exactly when the
Python code raises. -/

def getRowFromVarRef (graph : registerAllocationGraph) (varRef : variableReference) :
    Option registerPrioratiesAndLinks :=
  (graph.tables[varRef.indexOfRegisterAllocationTable]?).bind
    (fun table => dictGet? table.data varRef.nameOfVariableWithinTable)

/-- Numeric value of `getCellFromVarRefAndRegister`: the stored
priority `rowData.prioraties[register]` (the manim cell mobject is
dropped). -/
def getCellFromVarRefAndRegister (graph : registerAllocationGraph)
    (varRef : variableReference) (register : Nat) : Option Int :=
  (getRowFromVarRef graph varRef).bind (fun rowData => rowData.prioraties[register]?)

/-- Mutation of the row object a `variableReference` denotes
(`graph.tables[i].data[name] = ...` patterns in the source). -/
def modifyRow (graph : registerAllocationGraph) (varRef : variableReference)
    (f : registerPrioratiesAndLinks → registerPrioratiesAndLinks) : registerAllocationGraph :=
  ⟨listModify graph.tables varRef.indexOfRegisterAllocationTable
    (fun table => ⟨dictModify table.data varRef.nameOfVariableWithinTable f⟩)⟩

/-- Current link list of a variable; `[]` for references that do not
resolve (such references have no row, hence no links). -/
def linksAt (graph : registerAllocationGraph) (varRef : variableReference) :
    List variableLink :=
  ((getRowFromVarRef graph varRef).map registerPrioratiesAndLinks.links).getD []

/-- Current stored priority of a variable for a register column; `0` for
references or indices that do not resolve. -/
def priorAt (graph : registerAllocationGraph) (varRef : variableReference) (r : Nat) : Int :=
  ((getRowFromVarRef graph varRef).bind (fun row => row.prioraties[r]?)).getD 0

theorem getRow_modifyRow (graph : registerAllocationGraph) (varRef varRef' : variableReference)
    (f : registerPrioratiesAndLinks → registerPrioratiesAndLinks) :
    getRowFromVarRef (modifyRow graph varRef f) varRef' =
      if varRef = varRef' then (getRowFromVarRef graph varRef').map f
      else getRowFromVarRef graph varRef' := by
  obtain ⟨i, n⟩ := varRef
  obtain ⟨i', n'⟩ := varRef'
  simp only [getRowFromVarRef, modifyRow, listModify_getElem?, variableReference.mk.injEq]
  by_cases hi : i = i'
  · subst hi
    simp only [if_pos rfl, true_and]
    cases h : graph.tables[i]? with
    | none => simp
    | some t =>
      simp only [Option.map_some', Option.bind_some]
      by_cases hn : n = n'
      · simp [dictGet?_dictModify, hn]
      · simp [dictGet?_dictModify, hn]
  · have : ¬ (i = i' ∧ n = n') := fun h => hi h.1
    simp only [if_neg hi, if_neg this]

theorem linksAt_modifyRow_ne {graph : registerAllocationGraph}
    {varRef varRef' : variableReference} (hne : varRef ≠ varRef')
    (f : registerPrioratiesAndLinks → registerPrioratiesAndLinks) :
    linksAt (modifyRow graph varRef f) varRef' = linksAt graph varRef' := by
  simp [linksAt, getRow_modifyRow, hne]

theorem linksAt_modifyRow_self {graph : registerAllocationGraph}
    {varRef : variableReference} {row : registerPrioratiesAndLinks}
    (h : getRowFromVarRef graph varRef = some row)
    (f : registerPrioratiesAndLinks → registerPrioratiesAndLinks) :
    linksAt (modifyRow graph varRef f) varRef = (f row).links := by
  simp [linksAt, getRow_modifyRow, h]

theorem priorAt_modifyRow_ne {graph : registerAllocationGraph}
    {varRef varRef' : variableReference} (hne : varRef ≠ varRef')
    (f : registerPrioratiesAndLinks → registerPrioratiesAndLinks) (r : Nat) :
    priorAt (modifyRow graph varRef f) varRef' r = priorAt graph varRef' r := by
  simp [priorAt, getRow_modifyRow, hne]

theorem priorAt_modifyRow_self {graph : registerAllocationGraph}
    {varRef : variableReference} {row : registerPrioratiesAndLinks}
    (h : getRowFromVarRef graph varRef = some row)
    (f : registerPrioratiesAndLinks → registerPrioratiesAndLinks) (r : Nat) :
    priorAt (modifyRow graph varRef f) varRef r = ((f row).prioraties[r]?).getD 0 := by
  simp [priorAt, getRow_modifyRow, h]

theorem isSome_getRow_modifyRow (graph : registerAllocationGraph)
    (varRef varRef' : variableReference)
    (f : registerPrioratiesAndLinks → registerPrioratiesAndLinks) :
    (getRowFromVarRef (modifyRow graph varRef f) varRef').isSome =
      (getRowFromVarRef graph varRef').isSome := by
  rw [getRow_modifyRow]
  by_cases h : varRef = varRef'
  · simp [h]
  · simp [h]

/-- A `modifyRow` that only rewrites the link list never moves a stored
priority. -/
theorem priorAt_modifyRow_links {graph : registerAllocationGraph}
    {varRef : variableReference}
    {f : registerPrioratiesAndLinks → registerPrioratiesAndLinks}
    (hf : ∀ row, (f row).prioraties = row.prioraties)
    (varRef' : variableReference) (r : Nat) :
    priorAt (modifyRow graph varRef f) varRef' r = priorAt graph varRef' r := by
  by_cases h : varRef = varRef'
  · subst h
    cases hr : getRowFromVarRef graph varRef with
    | none => simp [priorAt, getRow_modifyRow, hr]
    | some row => simp [priorAt, getRow_modifyRow, hr, hf]
  · exact priorAt_modifyRow_ne h f r

/-! ### addToTableCell -/

/-- Source function `addToTableCell(graph, varRef, register, added)`: reads the current cell
through `getCellFromVarRefAndRegister` (raising on a bad reference or
register, hence the two guards) and then performs
`data[name].prioraties[register] += added.value`.  The animations only
redraw the mobjects for the same numbers. -/
def addToTableCell (graph : registerAllocationGraph) (varRef : variableReference)
    (register : Nat) (added : Int) : Option registerAllocationGraph :=
  (getRowFromVarRef graph varRef).bind fun rowData =>
    (rowData.prioraties[register]?).bind fun _ =>
      some (modifyRow graph varRef (fun row =>
        { row with prioraties := listModify row.prioraties register (fun v => v + added) }))

theorem addToTableCell_some_elim {graph g' : registerAllocationGraph}
    {varRef : variableReference} {register : Nat} {added : Int}
    (h : addToTableCell graph varRef register added = some g') :
    ∃ row, getRowFromVarRef graph varRef = some row ∧ register < row.prioraties.length ∧
      g' = modifyRow graph varRef (fun row =>
        { row with prioraties := listModify row.prioraties register (fun v => v + added) }) := by
  cases hr : getRowFromVarRef graph varRef with
  | none => simp [addToTableCell, hr] at h
  | some row =>
    cases hp : row.prioraties[register]? with
    | none => simp [addToTableCell, hr, hp] at h
    | some x =>
      refine ⟨row, rfl, ?_, ?_⟩
      · exact (List.getElem?_eq_some.mp hp).1
      · simp only [addToTableCell, hr, hp, Option.some_bind, Option.some.injEq] at h
        exact h.symm

theorem addToTableCell_isSome {graph : registerAllocationGraph}
    {varRef : variableReference} {register : Nat} {row : registerPrioratiesAndLinks}
    (hr : getRowFromVarRef graph varRef = some row)
    (hlen : register < row.prioraties.length) (added : Int) :
    (addToTableCell graph varRef register added).isSome := by
  have hp := List.getElem?_eq_getElem hlen
  simp [addToTableCell, hr, hp]

theorem linksAt_addToTableCell {graph g' : registerAllocationGraph}
    {varRef : variableReference} {register : Nat} {added : Int}
    (h : addToTableCell graph varRef register added = some g') :
    ∀ u, linksAt g' u = linksAt graph u := by
  intro u
  obtain ⟨row, hr, _, hg'⟩ := addToTableCell_some_elim h
  subst hg'
  by_cases hu : varRef = u
  · subst hu
    rw [linksAt_modifyRow_self hr]
    simp [linksAt, hr]
  · exact linksAt_modifyRow_ne hu _

theorem priorAt_addToTableCell {graph g' : registerAllocationGraph}
    {varRef : variableReference} {register : Nat} {added : Int}
    (h : addToTableCell graph varRef register added = some g') :
    ∀ u r, priorAt g' u r =
      priorAt graph u r + (if u = varRef ∧ r = register then added else 0) := by
  intro u r
  obtain ⟨row, hr, hlen, hg'⟩ := addToTableCell_some_elim h
  subst hg'
  by_cases hu : u = varRef
  · subst hu
    rw [priorAt_modifyRow_self hr]
    have hp := List.getElem?_eq_getElem hlen
    by_cases hreg : r = register
    · subst hreg
      simp [priorAt, hr, hp, listModify_getElem?, Int.add_comm]
    · have hreg' : ¬ (register = r) := fun hc => hreg hc.symm
      simp [priorAt, hr, hreg, hreg', listModify_getElem?]
  · rw [priorAt_modifyRow_ne (fun hc => hu hc.symm)]
    simp [hu]

theorem isSome_getRow_addToTableCell {graph g' : registerAllocationGraph}
    {varRef : variableReference} {register : Nat} {added : Int}
    (h : addToTableCell graph varRef register added = some g') :
    ∀ u, (getRowFromVarRef g' u).isSome = (getRowFromVarRef graph u).isSome := by
  intro u
  obtain ⟨row, _, _, hg'⟩ := addToTableCell_some_elim h
  subst hg'
  exact isSome_getRow_modifyRow _ _ _ _

/-! ### The `filter` helper

The source's `filter(l, func)` collects the indices of the elements for
which `func` returns true (`enumerate` starts at 0) and then deletes them
in order, shifting each later index by the number of deletions performed
so far.  It mutates `l` in place and returns it; the embedding returns the
final list. -/

def indexesWhere {α : Type} (func : α → Bool) : List α → Nat → List Nat
  | [], _ => []
  | a :: l, i => if func a then i :: indexesWhere func l (i + 1) else indexesWhere func l (i + 1)

def deleteIndexes {α : Type} : List α → List Nat → Nat → List α
  | l, [], _ => l
  | l, i :: rest, removed => deleteIndexes (l.eraseIdx (i - removed)) rest (removed + 1)

def filter {α : Type} (l : List α) (func : α → Bool) : List α :=
  deleteIndexes l (indexesWhere func l 0) 0

theorem indexesWhere_ge {α : Type} (func : α → Bool) :
    ∀ (l : List α) (k : Nat), ∀ i ∈ indexesWhere func l k, k ≤ i := by
  intro l
  induction l with
  | nil => intro k i hi; simp [indexesWhere] at hi
  | cons a l ih =>
    intro k i hi
    by_cases hf : func a
    · simp only [indexesWhere, if_pos hf, List.mem_cons] at hi
      rcases hi with rfl | hi
      · exact Nat.le_refl _
      · exact Nat.le_of_succ_le (ih (k + 1) i hi)
    · simp only [indexesWhere, if_neg hf] at hi
      exact Nat.le_of_succ_le (ih (k + 1) i hi)

theorem indexesWhere_sorted {α : Type} (func : α → Bool) :
    ∀ (l : List α) (k : Nat), (indexesWhere func l k).Pairwise (· < ·) := by
  intro l
  induction l with
  | nil => intro k; simp [indexesWhere]
  | cons a l ih =>
    intro k
    by_cases hf : func a
    · simp only [indexesWhere, if_pos hf]
      refine List.Pairwise.cons ?_ (ih (k + 1))
      intro j hj
      exact Nat.lt_of_succ_le (indexesWhere_ge func l (k + 1) j hj)
    · simpa only [indexesWhere, if_neg hf] using ih (k + 1)

theorem deleteIndexes_cons {α : Type} (a : α) :
    ∀ (idxs : List Nat) (l : List α) (r : Nat), (∀ i ∈ idxs, r < i) →
      idxs.Pairwise (· < ·) →
      deleteIndexes (a :: l) idxs r = a :: deleteIndexes l idxs (r + 1) := by
  intro idxs
  induction idxs with
  | nil => intro l r _ _; rfl
  | cons i rest ih =>
    intro l r h1 h2
    have hri : r < i := h1 i (List.mem_cons_self _ _)
    have hsub : i - r = (i - (r + 1)) + 1 := by omega
    simp only [deleteIndexes, hsub, Nat.add_sub_cancel, List.eraseIdx_cons_succ]
    exact ih (l.eraseIdx (i - (r + 1))) (r + 1)
      (fun j hj => Nat.lt_of_le_of_lt (Nat.succ_le_of_lt hri) (List.rel_of_pairwise_cons h2 hj))
      (h2.sublist (List.sublist_cons_self i rest))

theorem deleteIndexes_indexesWhere {α : Type} (func : α → Bool) :
    ∀ (l : List α) (k : Nat),
      deleteIndexes l (indexesWhere func l k) k = List.filter (fun a => !(func a)) l := by
  intro l
  induction l with
  | nil => intro k; rfl
  | cons a l ih =>
    intro k
    by_cases hf : func a
    · simp only [indexesWhere, if_pos hf, deleteIndexes, Nat.sub_self, List.eraseIdx_cons_zero,
        List.filter_cons, hf]
      exact ih (k + 1)
    · simp only [indexesWhere, if_neg hf, List.filter_cons]
      rw [deleteIndexes_cons a _ l k
        (fun i hi => Nat.lt_of_succ_le (indexesWhere_ge func l (k + 1) i hi))
        (indexesWhere_sorted func l (k + 1))]
      simp [hf, ih (k + 1)]

/-- The source `filter` keeps exactly the elements on which the predicate is
false, in their original order. -/
theorem filter_eq_filter_not {α : Type} (l : List α) (func : α → Bool) :
    filter l func = List.filter (fun a => !(func a)) l :=
  deleteIndexes_indexesWhere func l 0

/-! ### Table construction -/

/-- Source function `generateRegisterAllocationTable(*variables)`: inserts
`registerPrioratiesAndLinks([])` (empty links, default priority list
`[0,0,0,0,0]`) under each name in order, with Python dict assignment
semantics (a repeated name overwrites in place).  The manim
`MobjectTable` is display-only and dropped. -/
def generateRegisterAllocationTable («variables» : List String) : registerAllocationTable :=
  ⟨«variables».foldl (fun data var => dictSet data var { links := [] }) []⟩

/-- Source function `generateRegisterAllocationGraph(scene, *varNamesList)`: one table per
name list; the grid layout and fade-in animations touch no data. -/
def generateRegisterAllocationGraph (varNamesList : List (List String)) :
    registerAllocationGraph :=
  ⟨varNamesList.map generateRegisterAllocationTable⟩

/-! ### createLink -/

/-- Source function `createLink(fromVar, toVar, strength)` returns a function mutating the
graph: after the two row lookups (which raise on invalid references) it
appends a link to `toVar` on `fromVar`'s row and a link to `fromVar` on
`toVar`'s row, then adds `strength` to both rows' Unknown column
(`number_of_registers`) via `addToTableCell`. -/
def createLink (fromVar toVar : variableReference) (strength : Int)
    (graph : registerAllocationGraph) : Option registerAllocationGraph :=
  (getRowFromVarRef graph fromVar).bind fun _fromRowData =>
    (getRowFromVarRef graph toVar).bind fun _toRowData =>
      let g1 := modifyRow graph fromVar (fun row =>
        { row with links := row.links ++ [⟨toVar, strength⟩] })
      let g2 := modifyRow g1 toVar (fun row =>
        { row with links := row.links ++ [⟨fromVar, strength⟩] })
      (addToTableCell g2 fromVar number_of_registers strength).bind fun g3 =>
        addToTableCell g3 toVar number_of_registers strength

theorem linksAt_modifyRow_append {graph : registerAllocationGraph}
    {varRef : variableReference} (hv : (getRowFromVarRef graph varRef).isSome)
    (lk : variableLink) (u : variableReference) :
    linksAt (modifyRow graph varRef (fun row => { row with links := row.links ++ [lk] })) u =
      linksAt graph u ++ (if u = varRef then [lk] else []) := by
  by_cases hu : u = varRef
  · subst hu
    obtain ⟨row, hr⟩ := Option.isSome_iff_exists.mp hv
    rw [linksAt_modifyRow_self hr]
    simp [linksAt, hr]
  · rw [linksAt_modifyRow_ne (fun hc => hu hc.symm)]
    simp [hu]

theorem createLink_spec {fromVar toVar : variableReference} {s : Int}
    {graph g' : registerAllocationGraph}
    (h : createLink fromVar toVar s graph = some g') :
    (∀ u, linksAt g' u = linksAt graph u
        ++ (if u = fromVar then [⟨toVar, s⟩] else [])
        ++ (if u = toVar then [⟨fromVar, s⟩] else []))
    ∧ (∀ u r, priorAt g' u r = priorAt graph u r
        + (if u = fromVar ∧ r = number_of_registers then s else 0)
        + (if u = toVar ∧ r = number_of_registers then s else 0))
    ∧ (∀ u, (getRowFromVarRef g' u).isSome = (getRowFromVarRef graph u).isSome) := by
  cases hf : getRowFromVarRef graph fromVar with
  | none => simp [createLink, hf] at h
  | some fromRow =>
  cases ht : getRowFromVarRef graph toVar with
  | none => simp [createLink, hf, ht] at h
  | some toRow =>
  have hf' : (getRowFromVarRef graph fromVar).isSome := by simp [hf]
  have ht' : (getRowFromVarRef graph toVar).isSome := by simp [ht]
  simp only [createLink, hf, ht, Option.some_bind] at h
  cases h3 : addToTableCell
      (modifyRow (modifyRow graph fromVar (fun row =>
        { row with links := row.links ++ [⟨toVar, s⟩] })) toVar (fun row =>
        { row with links := row.links ++ [⟨fromVar, s⟩] }))
      fromVar number_of_registers s with
  | none => rw [h3] at h; simp at h
  | some g3 =>
  rw [h3, Option.some_bind] at h
  have hvt1 : (getRowFromVarRef (modifyRow graph fromVar (fun row =>
      { row with links := row.links ++ [⟨toVar, s⟩] })) toVar).isSome := by
    rw [isSome_getRow_modifyRow]; exact ht'
  refine ⟨fun u => ?_, fun u r => ?_, fun u => ?_⟩
  · rw [linksAt_addToTableCell h u, linksAt_addToTableCell h3 u,
      linksAt_modifyRow_append hvt1 _ u, linksAt_modifyRow_append hf' _ u]
  · rw [priorAt_addToTableCell h u r, priorAt_addToTableCell h3 u r,
      @priorAt_modifyRow_links _ toVar (fun row =>
        { row with links := row.links ++ [⟨fromVar, s⟩] }) (fun _ => rfl) u r,
      @priorAt_modifyRow_links _ fromVar (fun row =>
        { row with links := row.links ++ [⟨toVar, s⟩] }) (fun _ => rfl) u r]
  · rw [isSome_getRow_addToTableCell h u, isSome_getRow_addToTableCell h3 u,
      isSome_getRow_modifyRow, isSome_getRow_modifyRow]

/-! ### allocateRegisterToVariable -/

/-- The `for link in rowData.links` loop of `allocateRegisterToVariable`.
Python's list iterator reads `rowData.links[i]` for `i = 0, 1, ...` from
the *live* list object and stops at the first out-of-range index; the
in-loop `filter` call mutates that same object in place (it can shrink
while being iterated when `var` links to itself), so the element is
re-read from the current graph each round.  Each round adds the link's
strength to the linked row's `register` column, subtracts it from that
row's Unknown column, and deletes the linked row's links back to `var`.
`fuel` bounds the rounds; the caller passes the initial list length, which
always suffices because the loop body never lengthens the list, and on
exhausted fuel with elements left the embedding answers `none` (which the
lemmas below show cannot happen for the caller's fuel). -/
def allocLoop (var : variableReference) (register : Nat) :
    Nat → Nat → registerAllocationGraph → Option registerAllocationGraph
  | 0, i, graph =>
    match (linksAt graph var)[i]? with
    | none => some graph
    | some _ => none
  | fuel + 1, i, graph =>
    match (linksAt graph var)[i]? with
    | none => some graph
    | some link =>
      (addToTableCell graph link.«variable» register link.strength).bind fun g1 =>
        (addToTableCell g1 link.«variable» number_of_registers (- link.strength)).bind fun g2 =>
          allocLoop var register fuel (i + 1)
            (modifyRow g2 link.«variable» (fun row =>
              { row with links := filter row.links (fun l => l.«variable» == var) }))

/-- Source function `allocateRegisterToVariable(var, register)` returns a function mutating
the graph: after the table and row lookups and the register-column lookup
(`getColFromRegister` indexes column `register + 1` out of
`number_of_registers + 2`, raising when `register > number_of_registers`;
embedded as the guard), it runs the link loop and finally clears `var`'s
own link list. -/
def allocateRegisterToVariable (var : variableReference) (register : Nat)
    (graph : registerAllocationGraph) : Option registerAllocationGraph :=
  (graph.tables[var.indexOfRegisterAllocationTable]?).bind fun _table =>
    (getRowFromVarRef graph var).bind fun rowData =>
      (if register ≤ number_of_registers then some () else none).bind fun _ =>
        (allocLoop var register rowData.links.length 0 graph).bind fun g' =>
          some (modifyRow g' var (fun row => { row with links := [] }))

/-! ### Derived link quantities -/

/-- The references a list of links points at, in order. -/
def targetsOf (L : List variableLink) : List variableReference :=
  L.map (fun l => l.«variable»)

/-- Total strength of the links in `L` pointing at `u`. -/
def sumStrengthsTo (L : List variableLink) (u : variableReference) : Int :=
  ((L.filter (fun l => l.«variable» == u)).map variableLink.strength).sum

/-- Total strength of all links in `L`. -/
def sumStrengths (L : List variableLink) : Int :=
  (L.map variableLink.strength).sum

/-- The links of `L` that do not point at `var`; this is what the source's
`filter(links, lambda link: link.variable == var)` call leaves behind. -/
def removeLinksTo (L : List variableLink) (var : variableReference) : List variableLink :=
  List.filter (fun l => !(l.«variable» == var)) L

theorem filter_idem {α : Type} (p : α → Bool) :
    ∀ l : List α, List.filter p (List.filter p l) = List.filter p l := by
  intro l
  induction l with
  | nil => rfl
  | cons a l ih =>
    by_cases h : p a
    · simp [List.filter_cons, h, ih]
    · simp [List.filter_cons, h, ih]

theorem removeLinksTo_idem (L : List variableLink) (v : variableReference) :
    removeLinksTo (removeLinksTo L v) v = removeLinksTo L v :=
  filter_idem _ L

theorem sumStrengthsTo_cons (l : variableLink) (L : List variableLink) (u : variableReference) :
    sumStrengthsTo (l :: L) u =
      (if l.«variable» = u then l.strength else 0) + sumStrengthsTo L u := by
  by_cases h : l.«variable» = u <;> simp [sumStrengthsTo, List.filter_cons, h]

theorem sumStrengthsTo_eq_zero {L : List variableLink} {u : variableReference}
    (h : u ∉ targetsOf L) : sumStrengthsTo L u = 0 := by
  induction L with
  | nil => rfl
  | cons l L ih =>
    simp only [targetsOf, List.map_cons, List.mem_cons] at h
    push_neg at h
    rw [sumStrengthsTo_cons, if_neg (fun hc => h.1 hc.symm), ih h.2]
    rfl

theorem drop_eq_cons_of_getElem? {α : Type} :
    ∀ (l : List α) (i : Nat) (a : α), l[i]? = some a → l.drop i = a :: l.drop (i + 1) := by
  intro l
  induction l with
  | nil => intro i a h; simp at h
  | cons x t ih =>
    intro i a h
    cases i with
    | zero => simp at h; simp [h]
    | succ i =>
      simp only [List.getElem?_cons_succ] at h
      simpa [List.drop_succ_cons] using ih i a h

theorem linksAt_modifyRow_pyfilter {graph : registerAllocationGraph}
    {w : variableReference} (hv : (getRowFromVarRef graph w).isSome)
    (p : variableLink → Bool) (u : variableReference) :
    linksAt (modifyRow graph w (fun row => { row with links := filter row.links p })) u =
      if u = w then List.filter (fun l => !(p l)) (linksAt graph w) else linksAt graph u := by
  by_cases hu : u = w
  · subst hu
    obtain ⟨row, hr⟩ := Option.isSome_iff_exists.mp hv
    rw [linksAt_modifyRow_self hr, if_pos rfl]
    simp [filter_eq_filter_not, linksAt, hr]
  · rw [linksAt_modifyRow_ne (fun hc => hu hc.symm), if_neg hu]

/-! ### The loop characterisation

`allocLoop_spec` describes one full run of the link loop started at index
`i`, provided none of the still-unprocessed links points back at `var`
(then the in-loop `filter` never touches `var`'s own list and the
iteration visits every remaining element exactly once): every reference
the remaining links point at has its links back to `var` deleted, gains
the pointing strengths on the `register` column and loses them on the
Unknown column; everything else is untouched. -/

theorem allocLoop_spec (var : variableReference) (register : Nat) :
    ∀ (fuel i : Nat) (graph g' : registerAllocationGraph),
      allocLoop var register fuel i graph = some g' →
      (∀ l ∈ (linksAt graph var).drop i, l.«variable» ≠ var) →
      (∀ u, linksAt g' u =
          if u = var then linksAt graph var
          else if u ∈ targetsOf ((linksAt graph var).drop i) then
            removeLinksTo (linksAt graph u) var
          else linksAt graph u)
      ∧ (∀ u r, priorAt g' u r = priorAt graph u r
          + (if r = register then sumStrengthsTo ((linksAt graph var).drop i) u else 0)
          - (if r = number_of_registers then sumStrengthsTo ((linksAt graph var).drop i) u else 0))
      ∧ (∀ u, (getRowFromVarRef g' u).isSome = (getRowFromVarRef graph u).isSome) := by
  intro fuel
  induction fuel with
  | zero =>
    intro i graph g' h hns
    cases hL : (linksAt graph var)[i]? with
    | some link => simp [allocLoop, hL] at h
    | none =>
      simp only [allocLoop, hL, Option.some.injEq] at h
      subst h
      have hd : (linksAt graph var).drop i = [] :=
        List.drop_eq_nil_of_le (List.getElem?_eq_none_iff.mp hL)
      refine ⟨fun u => ?_, fun u r => ?_, fun u => rfl⟩
      · by_cases hu : u = var <;> simp [hu, hd, targetsOf]
      · simp [hd, sumStrengthsTo]
  | succ fuel ih =>
    intro i graph g' h hns
    cases hL : (linksAt graph var)[i]? with
    | none =>
      simp only [allocLoop, hL, Option.some.injEq] at h
      subst h
      have hd : (linksAt graph var).drop i = [] :=
        List.drop_eq_nil_of_le (List.getElem?_eq_none_iff.mp hL)
      refine ⟨fun u => ?_, fun u r => ?_, fun u => rfl⟩
      · by_cases hu : u = var <;> simp [hu, hd, targetsOf]
      · simp [hd, sumStrengthsTo]
    | some link =>
      simp only [allocLoop, hL] at h
      cases h1 : addToTableCell graph link.«variable» register link.strength with
      | none => rw [h1] at h; simp at h
      | some g1 =>
      rw [h1, Option.some_bind] at h
      cases h2 : addToTableCell g1 link.«variable» number_of_registers (- link.strength) with
      | none => rw [h2] at h; simp at h
      | some g2 =>
      rw [h2, Option.some_bind] at h
      have hdrop : (linksAt graph var).drop i = link :: (linksAt graph var).drop (i + 1) :=
        drop_eq_cons_of_getElem? _ i link hL
      have hw : link.«variable» ≠ var := by
        refine hns link ?_
        rw [hdrop]; exact List.mem_cons_self _ _
      have hvg2 : (getRowFromVarRef g2 link.«variable»).isSome := by
        obtain ⟨row1, hr1, _, _⟩ := addToTableCell_some_elim h2
        rw [isSome_getRow_addToTableCell h2, hr1]
        rfl
      have hl12 : ∀ u, linksAt g2 u = linksAt graph u := fun u =>
        (linksAt_addToTableCell h2 u).trans (linksAt_addToTableCell h1 u)
      have hfil : ∀ u, linksAt (modifyRow g2 link.«variable» (fun row =>
          { row with links := filter row.links (fun l => l.«variable» == var) })) u =
          if u = link.«variable» then removeLinksTo (linksAt graph link.«variable») var
          else linksAt graph u := by
        intro u
        rw [linksAt_modifyRow_pyfilter hvg2 _ u]
        by_cases hu : u = link.«variable» <;> simp [hu, hl12, removeLinksTo]
      have hg3var : linksAt (modifyRow g2 link.«variable» (fun row =>
          { row with links := filter row.links (fun l => l.«variable» == var) })) var =
          linksAt graph var := by
        rw [hfil var, if_neg (fun hc => hw hc.symm)]
      obtain ⟨IHl, IHp, IHv⟩ := ih (i + 1) _ g' h (by
        rw [hg3var]
        intro l hl
        refine hns l ?_
        rw [hdrop]
        exact List.mem_cons_of_mem _ hl)
      rw [hg3var] at IHl IHp
      have hpg3 : ∀ u r, priorAt (modifyRow g2 link.«variable» (fun row =>
          { row with links := filter row.links (fun l => l.«variable» == var) })) u r =
          priorAt graph u r
          + (if u = link.«variable» ∧ r = register then link.strength else 0)
          + (if u = link.«variable» ∧ r = number_of_registers then - link.strength else 0) := by
        intro u r
        rw [@priorAt_modifyRow_links _ link.«variable» (fun row =>
            { row with links := filter row.links (fun l => l.«variable» == var) })
            (fun _ => rfl) u r,
          priorAt_addToTableCell h2 u r, priorAt_addToTableCell h1 u r]
      have hvg3 : ∀ u, (getRowFromVarRef (modifyRow g2 link.«variable» (fun row =>
          { row with links := filter row.links (fun l => l.«variable» == var) })) u).isSome =
          (getRowFromVarRef graph u).isSome := by
        intro u
        rw [isSome_getRow_modifyRow, isSome_getRow_addToTableCell h2 u,
          isSome_getRow_addToTableCell h1 u]
      refine ⟨fun u => ?_, fun u r => ?_, fun u => (IHv u).trans (hvg3 u)⟩
      · rw [IHl u]
        by_cases hu : u = var
        · simp [hu]
        · simp only [if_neg hu]
          have htg : targetsOf ((linksAt graph var).drop i) =
              link.«variable» :: targetsOf ((linksAt graph var).drop (i + 1)) := by
            rw [hdrop]; rfl
          by_cases hmem : u ∈ targetsOf ((linksAt graph var).drop (i + 1))
          · rw [if_pos hmem, hfil u]
            have : u ∈ targetsOf ((linksAt graph var).drop i) := by
              rw [htg]; exact List.mem_cons_of_mem _ hmem
            rw [if_pos this]
            by_cases huw : u = link.«variable»
            · rw [if_pos huw, huw, removeLinksTo_idem]
            · rw [if_neg huw]
          · rw [if_neg hmem, hfil u]
            by_cases huw : u = link.«variable»
            · rw [if_pos huw, huw]
              have : link.«variable» ∈ targetsOf ((linksAt graph var).drop i) := by
                rw [htg]; exact List.mem_cons_self _ _
              rw [if_pos this]
            · rw [if_neg huw]
              have : u ∉ targetsOf ((linksAt graph var).drop i) := by
                rw [htg]
                intro hc
                rcases List.mem_cons.mp hc with hc | hc
                · exact huw hc
                · exact hmem hc
              rw [if_neg this]
      · rw [IHp u r, hpg3 u r, hdrop, sumStrengthsTo_cons]
        by_cases huw : u = link.«variable»
        · by_cases hr1 : r = register
          · by_cases hr2 : r = number_of_registers
            · have heq : register = number_of_registers := hr1.symm.trans hr2
              simp only [huw, hr1, hr2, heq, and_self, if_true, if_pos rfl]
              ring
            · have hne : ¬ (register = number_of_registers) := fun hc => hr2 (hr1.trans hc)
              simp [huw, hr1, hr2, hne]
              try ring
          · by_cases hr2 : r = number_of_registers
            · have hne : ¬ (number_of_registers = register) := fun hc => hr1 (hr2.trans hc)
              simp [huw, hr1, hr2, hne]
              try ring
            · simp [huw, hr1, hr2]
        · have huw' : ¬ (link.«variable» = u) := fun hc => huw hc.symm
          by_cases hr1 : r = register <;> by_cases hr2 : r = number_of_registers <;>
            simp [huw, huw', hr1, hr2]

/-- Effect of a successful `allocateRegisterToVariable(var, register)` when
none of `var`'s links points back at `var`: `var`'s link list is cleared;
every row some link of `var` pointed at loses its links back to `var`,
gains the pointing strengths on column `register` and loses them on the
Unknown column; all other rows and cells are untouched. -/
theorem allocateRegisterToVariable_spec {var : variableReference} {register : Nat}
    {graph g' : registerAllocationGraph}
    (h : allocateRegisterToVariable var register graph = some g')
    (hns : ∀ l ∈ linksAt graph var, l.«variable» ≠ var) :
    (∀ u, linksAt g' u =
        if u = var then []
        else if u ∈ targetsOf (linksAt graph var) then removeLinksTo (linksAt graph u) var
        else linksAt graph u)
    ∧ (∀ u r, priorAt g' u r = priorAt graph u r
        + (if r = register then sumStrengthsTo (linksAt graph var) u else 0)
        - (if r = number_of_registers then sumStrengthsTo (linksAt graph var) u else 0))
    ∧ (∀ u, (getRowFromVarRef g' u).isSome = (getRowFromVarRef graph u).isSome) := by
  cases ht : graph.tables[var.indexOfRegisterAllocationTable]? with
  | none => simp [allocateRegisterToVariable, ht] at h
  | some table =>
  cases hrow : getRowFromVarRef graph var with
  | none => simp [allocateRegisterToVariable, ht, hrow] at h
  | some rowData =>
  by_cases hreg : register ≤ number_of_registers
  case neg => simp [allocateRegisterToVariable, ht, hrow, hreg] at h
  case pos =>
  cases hloop : allocLoop var register rowData.links.length 0 graph with
  | none => simp [allocateRegisterToVariable, ht, hrow, hreg, hloop] at h
  | some gl =>
  have hg' : g' = modifyRow gl var (fun row => { row with links := [] }) := by
    simp only [allocateRegisterToVariable, ht, hrow, hreg, hloop, Option.some_bind, if_true,
      Option.some.injEq] at h
    exact h.symm
  obtain ⟨Sl, Sp, Sv⟩ := allocLoop_spec var register rowData.links.length 0 graph gl hloop
    (by simpa using hns)
  rw [List.drop_zero] at Sl Sp
  have hvgl : (getRowFromVarRef gl var).isSome := by rw [Sv var, hrow]; rfl
  obtain ⟨rowv, hrowv⟩ := Option.isSome_iff_exists.mp hvgl
  subst hg'
  refine ⟨fun u => ?_, fun u r => ?_, fun u => (isSome_getRow_modifyRow _ _ _ _).trans (Sv u)⟩
  · by_cases hu : u = var
    · subst hu
      rw [linksAt_modifyRow_self hrowv, if_pos rfl]
    · rw [linksAt_modifyRow_ne (fun hc => hu hc.symm), Sl u, if_neg hu, if_neg hu]
  · rw [@priorAt_modifyRow_links _ var (fun row => { row with links := [] })
      (fun _ => rfl) u r, Sp u r]

/-! ### Freshly generated graphs -/

theorem mem_dictSet {α : Type} {kv : String × α} :
    ∀ (d : List (String × α)) (k : String) (v : α),
      kv ∈ dictSet d k v → kv ∈ d ∨ kv = (k, v) := by
  intro d
  induction d with
  | nil =>
    intro k v h
    simp only [dictSet, List.mem_singleton] at h
    exact Or.inr h
  | cons kv0 d ih =>
    intro k v h
    obtain ⟨k0, v0⟩ := kv0
    by_cases h0 : k0 = k
    · rw [dictSet, if_pos h0] at h
      rcases List.mem_cons.mp h with h | h
      · exact Or.inr h
      · exact Or.inl (List.mem_cons_of_mem _ h)
    · rw [dictSet, if_neg h0] at h
      rcases List.mem_cons.mp h with h | h
      · exact Or.inl (h ▸ List.mem_cons_self _ _)
      · rcases ih k v h with h | h
        · exact Or.inl (List.mem_cons_of_mem _ h)
        · exact Or.inr h

theorem generate_foldl_values {c : registerPrioratiesAndLinks} :
    ∀ (names : List String) (acc : List (String × registerPrioratiesAndLinks)),
      (∀ kv ∈ acc, kv.2 = c) →
      ∀ kv ∈ names.foldl (fun d v => dictSet d v c) acc, kv.2 = c := by
  intro names
  induction names with
  | nil => intro acc hacc kv h; exact hacc kv h
  | cons n names ih =>
    intro acc hacc kv h
    refine ih (dictSet acc n c) ?_ kv h
    intro kv' h'
    rcases mem_dictSet _ _ _ h' with h' | h'
    · exact hacc kv' h'
    · rw [h']

/-- Every row of a freshly generated graph is the dataclass default:
no links, priorities `[0,0,0,0,0]`. -/
theorem generate_getRow {varNamesList : List (List String)} {u : variableReference}
    {row : registerPrioratiesAndLinks}
    (h : getRowFromVarRef (generateRegisterAllocationGraph varNamesList) u = some row) :
    row = { links := [], prioraties := [0, 0, 0, 0, 0] } := by
  unfold getRowFromVarRef generateRegisterAllocationGraph at h
  cases ht :
      (varNamesList.map generateRegisterAllocationTable)[u.indexOfRegisterAllocationTable]? with
  | none => rw [ht] at h; simp at h
  | some t =>
    rw [ht, Option.some_bind] at h
    obtain ⟨names, _, hnt⟩ := List.mem_map.mp (List.getElem?_mem ht)
    subst hnt
    have hkv := dictGet?_some_mem h
    simp only [generateRegisterAllocationTable] at hkv
    exact generate_foldl_values names [] (by intro kv hk; simp at hk) _ hkv

theorem generate_linksAt (varNamesList : List (List String)) (u : variableReference) :
    linksAt (generateRegisterAllocationGraph varNamesList) u = [] := by
  cases hr : getRowFromVarRef (generateRegisterAllocationGraph varNamesList) u with
  | none => simp [linksAt, hr]
  | some row => simp [linksAt, hr, generate_getRow hr]

theorem default_prioraties_getD (r : Nat) : ((([0, 0, 0, 0, 0] : List Int))[r]?).getD 0 = 0 := by
  match r with
  | 0 | 1 | 2 | 3 | 4 => rfl
  | n + 5 => rfl

theorem generate_priorAt (varNamesList : List (List String)) (u : variableReference) (r : Nat) :
    priorAt (generateRegisterAllocationGraph varNamesList) u r = 0 := by
  cases hr : getRowFromVarRef (generateRegisterAllocationGraph varNamesList) u with
  | none => simp [priorAt, hr]
  | some row =>
    rw [generate_getRow hr] at hr
    simp [priorAt, hr, default_prioraties_getD]

/-! ### Link symmetry -/

/-- The references that actually name a row of the graph, one per table
entry. -/
def entryRefsOfTables : List registerAllocationTable → Nat → List variableReference
  | [], _ => []
  | t :: rest, i => t.data.map (fun kv => ⟨i, kv.1⟩) ++ entryRefsOfTables rest (i + 1)

def entryRefs (graph : registerAllocationGraph) : List variableReference :=
  entryRefsOfTables graph.tables 0

theorem mem_entryRefsOfTables {name : String} {row : registerPrioratiesAndLinks} :
    ∀ (tables : List registerAllocationTable) (j i : Nat) (t : registerAllocationTable),
      tables[j]? = some t → (name, row) ∈ t.data →
      (⟨i + j, name⟩ : variableReference) ∈ entryRefsOfTables tables i := by
  intro tables
  induction tables with
  | nil => intro j i t h _; simp at h
  | cons t0 rest ih =>
    intro j i t h hmem
    cases j with
    | zero =>
      simp only [List.getElem?_cons_zero, Option.some.injEq] at h
      subst h
      refine List.mem_append_left _ ?_
      simpa using List.mem_map_of_mem (fun kv => (⟨i, kv.1⟩ : variableReference)) hmem
    | succ j =>
      simp only [List.getElem?_cons_succ] at h
      have := ih j (i + 1) t h hmem
      refine List.mem_append_right _ ?_
      have harith : i + 1 + j = i + (j + 1) := by omega
      rwa [harith] at this

theorem mem_entryRefs_of_getRow {graph : registerAllocationGraph} {u : variableReference}
    {row : registerPrioratiesAndLinks} (h : getRowFromVarRef graph u = some row) :
    u ∈ entryRefs graph := by
  unfold getRowFromVarRef at h
  cases ht : graph.tables[u.indexOfRegisterAllocationTable]? with
  | none => rw [ht] at h; simp at h
  | some t =>
    rw [ht, Option.some_bind] at h
    have := mem_entryRefsOfTables graph.tables u.indexOfRegisterAllocationTable 0 t ht
      (dictGet?_some_mem h)
    simpa using this

/-- Links are undirected: every stored link has a mate of the same strength
stored on the row it points at. -/
def LinkSym (graph : registerAllocationGraph) : Prop :=
  ∀ u : variableReference, ∀ l ∈ linksAt graph u,
    (⟨u, l.strength⟩ : variableLink) ∈ linksAt graph l.«variable»

/-- Predicate `LinkSym` restricted to the rows the graph actually has; equivalent
(references without a row have no links) but decidable by enumeration. -/
def LinkSymOn (graph : registerAllocationGraph) : Prop :=
  ∀ u ∈ entryRefs graph, ∀ l ∈ linksAt graph u,
    (⟨u, l.strength⟩ : variableLink) ∈ linksAt graph l.«variable»

instance (graph : registerAllocationGraph) : Decidable (LinkSymOn graph) := by
  unfold LinkSymOn
  infer_instance

theorem linkSymOn_iff (graph : registerAllocationGraph) : LinkSymOn graph ↔ LinkSym graph := by
  constructor
  · intro h u l hl
    cases hr : getRowFromVarRef graph u with
    | none => simp [linksAt, hr] at hl
    | some row => exact h u (mem_entryRefs_of_getRow hr) l hl
  · intro h u _
    exact h u

/-- No row links to itself. -/
def NoSelfLinks (graph : registerAllocationGraph) : Prop :=
  ∀ u : variableReference, ∀ l ∈ linksAt graph u, l.«variable» ≠ u

/-- Multiset form of link symmetry: links between `u` and `w` of each
strength are stored the same number of times on both rows. -/
def CountSym (graph : registerAllocationGraph) : Prop :=
  ∀ (u w : variableReference) (s : Int),
    (linksAt graph u).count ⟨w, s⟩ = (linksAt graph w).count ⟨u, s⟩

/-! ### Reachability

The spec's reachable states: any number of tables with any variable
names, then any sequence of successful `createLink` and
`allocateRegisterToVariable` steps.  `ReachesAlloc` additionally records
which variables have been the subject of an allocation.  The `D` variants
restrict the steps to links between two *distinct* references and to
actual register columns (`register < number_of_registers`); the claims
C4 and C5 fail without these restrictions and hold with them. -/

inductive Reachable : registerAllocationGraph → Prop where
  | init (varNamesList : List (List String)) :
      Reachable (generateRegisterAllocationGraph varNamesList)
  | step_link {graph g' : registerAllocationGraph} (a b : variableReference) (s : Int)
      (hr : Reachable graph) (h : createLink a b s graph = some g') : Reachable g'
  | step_alloc {graph g' : registerAllocationGraph} (v : variableReference) (r : Nat)
      (hr : Reachable graph) (h : allocateRegisterToVariable v r graph = some g') : Reachable g'

inductive ReachesAlloc : registerAllocationGraph → List variableReference → Prop where
  | init (varNamesList : List (List String)) :
      ReachesAlloc (generateRegisterAllocationGraph varNamesList) []
  | step_link {graph g' : registerAllocationGraph} {A : List variableReference}
      (a b : variableReference) (s : Int)
      (hr : ReachesAlloc graph A) (h : createLink a b s graph = some g') : ReachesAlloc g' A
  | step_alloc {graph g' : registerAllocationGraph} {A : List variableReference}
      (v : variableReference) (r : Nat)
      (hr : ReachesAlloc graph A) (h : allocateRegisterToVariable v r graph = some g') :
      ReachesAlloc g' (v :: A)

inductive ReachableD : registerAllocationGraph → Prop where
  | init (varNamesList : List (List String)) :
      ReachableD (generateRegisterAllocationGraph varNamesList)
  | step_link {graph g' : registerAllocationGraph} (a b : variableReference) (s : Int)
      (hab : a ≠ b) (hr : ReachableD graph) (h : createLink a b s graph = some g') :
      ReachableD g'
  | step_alloc {graph g' : registerAllocationGraph} (v : variableReference) (r : Nat)
      (hr : ReachableD graph) (h : allocateRegisterToVariable v r graph = some g') :
      ReachableD g'

inductive ReachesAllocD : registerAllocationGraph → List variableReference → Prop where
  | init (varNamesList : List (List String)) :
      ReachesAllocD (generateRegisterAllocationGraph varNamesList) []
  | step_link {graph g' : registerAllocationGraph} {A : List variableReference}
      (a b : variableReference) (s : Int)
      (hab : a ≠ b) (hr : ReachesAllocD graph A) (h : createLink a b s graph = some g') :
      ReachesAllocD g' A
  | step_alloc {graph g' : registerAllocationGraph} {A : List variableReference}
      (v : variableReference) (r : Nat) (hreg : r < number_of_registers)
      (hr : ReachesAllocD graph A) (h : allocateRegisterToVariable v r graph = some g') :
      ReachesAllocD g' (v :: A)

theorem ReachesAllocD.toReachableD {graph : registerAllocationGraph}
    {A : List variableReference} (h : ReachesAllocD graph A) : ReachableD graph := by
  induction h with
  | init varNamesList => exact .init varNamesList
  | step_link a b s hab _ h ih => exact .step_link a b s hab ih h
  | step_alloc v r _ _ h ih => exact .step_alloc v r ih h

/-! ### Counting and summing links -/

theorem count_ite_singleton {c : Prop} [Decidable c] (x y : variableLink) :
    List.count x (if c then [y] else []) = if c ∧ y = x then 1 else 0 := by
  by_cases hc : c
  · simp [hc, List.count_singleton]
  · simp [hc]

theorem count_removeLinksTo_self (L : List variableLink) (v : variableReference) (s : Int) :
    (removeLinksTo L v).count ⟨v, s⟩ = 0 := by
  rw [List.count_eq_zero]
  intro hc
  have := (List.mem_filter.mp hc).2
  simp at this

theorem count_removeLinksTo_ne {v w : variableReference} (L : List variableLink) (s : Int)
    (h : w ≠ v) : (removeLinksTo L v).count ⟨w, s⟩ = L.count ⟨w, s⟩ :=
  List.count_filter (by simp [h])

theorem count_eq_zero_of_not_target {L : List variableLink} {w : variableReference} (s : Int)
    (h : w ∉ targetsOf L) : L.count ⟨w, s⟩ = 0 := by
  rw [List.count_eq_zero]
  intro hc
  exact h (List.mem_map_of_mem (fun l => l.«variable») hc)

theorem sumStrengths_cons (l : variableLink) (L : List variableLink) :
    sumStrengths (l :: L) = l.strength + sumStrengths L := by
  simp [sumStrengths]

theorem sumStrengths_append (L1 L2 : List variableLink) :
    sumStrengths (L1 ++ L2) = sumStrengths L1 + sumStrengths L2 := by
  simp [sumStrengths]

theorem removeLinksTo_cons_self {l : variableLink} {v : variableReference}
    (L : List variableLink) (h : l.«variable» = v) :
    removeLinksTo (l :: L) v = removeLinksTo L v := by
  simp [removeLinksTo, List.filter_cons, h]

theorem removeLinksTo_cons_ne {l : variableLink} {v : variableReference}
    (L : List variableLink) (h : ¬ l.«variable» = v) :
    removeLinksTo (l :: L) v = l :: removeLinksTo L v := by
  simp [removeLinksTo, List.filter_cons, h]

theorem sumStrengths_removeLinksTo (L : List variableLink) (v : variableReference) :
    sumStrengths (removeLinksTo L v) = sumStrengths L - sumStrengthsTo L v := by
  induction L with
  | nil => rfl
  | cons l L ih =>
    by_cases hv : l.«variable» = v
    · rw [removeLinksTo_cons_self L hv, sumStrengths_cons, sumStrengthsTo_cons, if_pos hv, ih]
      ring
    · rw [removeLinksTo_cons_ne L hv, sumStrengths_cons, sumStrengths_cons, sumStrengthsTo_cons,
        if_neg hv, ih]
      ring

theorem count_strength_filter (w : variableReference) (s : Int) :
    ∀ L : List variableLink,
      List.count s ((L.filter (fun l => l.«variable» == w)).map variableLink.strength) =
        L.count ⟨w, s⟩ := by
  intro L
  induction L with
  | nil => rfl
  | cons l L ih =>
    obtain ⟨lv, ls⟩ := l
    by_cases hv : lv = w
    · by_cases hs : ls = s
      · simp [List.filter_cons, List.count_cons, hv, hs, ih]
      · simp [List.filter_cons, List.count_cons, hv, hs, ih, variableLink.mk.injEq]
    · simp [List.filter_cons, List.count_cons, hv, ih, variableLink.mk.injEq]

/-- Under multiset symmetry, the strength flowing from `u`'s links to `w`
equals the strength from `w`'s links to `u`. -/
theorem sumStrengthsTo_comm {graph : registerAllocationGraph} (h : CountSym graph)
    (u w : variableReference) :
    sumStrengthsTo (linksAt graph u) w = sumStrengthsTo (linksAt graph w) u := by
  unfold sumStrengthsTo
  refine List.Perm.sum_eq ?_
  rw [List.perm_iff_count]
  intro s
  rw [count_strength_filter, count_strength_filter, h u w s]

theorem LinkSym_of_CountSym {graph : registerAllocationGraph} (h : CountSym graph) :
    LinkSym graph := by
  intro u l hl
  have h1 : 0 < (linksAt graph u).count (⟨l.«variable», l.strength⟩ : variableLink) :=
    List.count_pos_iff.mpr hl
  rw [h u l.«variable» l.strength] at h1
  exact List.count_pos_iff.mp h1

/-! ### The invariants of distinct-endpoint reachability -/

theorem reachableD_inv {graph : registerAllocationGraph} (h : ReachableD graph) :
    NoSelfLinks graph ∧ CountSym graph := by
  induction h with
  | init L =>
    constructor
    · intro u l hl
      rw [generate_linksAt] at hl
      simp at hl
    · intro u w s
      rw [generate_linksAt, generate_linksAt]
      simp
  | step_link a b s hab hr h ih =>
    obtain ⟨hns, hcs⟩ := ih
    obtain ⟨hlinks, _, _⟩ := createLink_spec h
    constructor
    · intro u l hl
      rw [hlinks u] at hl
      rcases List.mem_append.mp hl with hl | hl
      · rcases List.mem_append.mp hl with hl | hl
        · exact hns u l hl
        · by_cases hu : u = a
          · rw [if_pos hu] at hl
            rw [List.mem_singleton.mp hl]
            exact fun hc => hab (hc.trans hu).symm
          · rw [if_neg hu] at hl
            simp at hl
      · by_cases hu : u = b
        · rw [if_pos hu] at hl
          rw [List.mem_singleton.mp hl]
          exact fun hc => hab (hc.trans hu)
        · rw [if_neg hu] at hl
          simp at hl
    · intro u w s'
      rw [hlinks u, hlinks w]
      simp only [List.count_append, count_ite_singleton]
      rw [hcs u w s']
      have e1 : (u = a ∧ (⟨b, s⟩ : variableLink) = ⟨w, s'⟩) ↔
          (w = b ∧ (⟨a, s⟩ : variableLink) = ⟨u, s'⟩) := by
        simp only [variableLink.mk.injEq]
        constructor
        · rintro ⟨rfl, rfl, rfl⟩; exact ⟨rfl, rfl, rfl⟩
        · rintro ⟨rfl, rfl, rfl⟩; exact ⟨rfl, rfl, rfl⟩
      have e2 : (u = b ∧ (⟨a, s⟩ : variableLink) = ⟨w, s'⟩) ↔
          (w = a ∧ (⟨b, s⟩ : variableLink) = ⟨u, s'⟩) := by
        simp only [variableLink.mk.injEq]
        constructor
        · rintro ⟨rfl, rfl, rfl⟩; exact ⟨rfl, rfl, rfl⟩
        · rintro ⟨rfl, rfl, rfl⟩; exact ⟨rfl, rfl, rfl⟩
      rw [if_congr e1 rfl rfl, if_congr e2 rfl rfl]
      ring
  | @step_alloc g g' v r hr h ih =>
    obtain ⟨hns, hcs⟩ := ih
    have hnsv : ∀ l ∈ linksAt g v, l.«variable» ≠ v := fun l hl => hns v l hl
    obtain ⟨hlinks, _, _⟩ := allocateRegisterToVariable_spec h hnsv
    constructor
    · intro u l hl
      rw [hlinks u] at hl
      by_cases hu : u = v
      · rw [if_pos hu] at hl
        simp at hl
      · rw [if_neg hu] at hl
        by_cases hmem : u ∈ targetsOf (linksAt g v)
        · rw [if_pos hmem] at hl
          exact hns u l (List.mem_filter.mp hl).1
        · rw [if_neg hmem] at hl
          exact hns u l hl
    · intro u w s'
      rw [hlinks u, hlinks w]
      by_cases hu : u = v <;> by_cases hw : w = v
      · rw [if_pos hu, if_pos hw, hu, hw]
      · rw [if_pos hu, if_neg hw, List.count_nil]
        by_cases hmem : w ∈ targetsOf (linksAt g v)
        · rw [if_pos hmem, hu, count_removeLinksTo_self]
        · rw [if_neg hmem, hu, hcs w v s', count_eq_zero_of_not_target s' hmem]
      · rw [if_neg hu, if_pos hw, List.count_nil]
        by_cases hmem : u ∈ targetsOf (linksAt g v)
        · rw [if_pos hmem, hw, count_removeLinksTo_self]
        · rw [if_neg hmem, hw, hcs u v s', count_eq_zero_of_not_target s' hmem]
      · rw [if_neg hu, if_neg hw]
        have hcount : ∀ (x y : variableReference), ¬ x = v →
            List.count (⟨x, s'⟩ : variableLink)
              (if y ∈ targetsOf (linksAt g v) then removeLinksTo (linksAt g y) v
               else linksAt g y) = (linksAt g y).count ⟨x, s'⟩ := by
          intro x y hx
          by_cases hmem : y ∈ targetsOf (linksAt g v)
          · rw [if_pos hmem, count_removeLinksTo_ne _ s' hx]
          · rw [if_neg hmem]
        rw [hcount w u hw, hcount u w hu, hcs u w s']

/-- The Unknown column of every never-allocated variable equals the total
strength of its current links, along distinct-endpoint reachability with
`register < number_of_registers` allocations. -/
theorem reachesAllocD_unknown {graph : registerAllocationGraph} {A : List variableReference}
    (h : ReachesAllocD graph A) :
    ∀ u, (getRowFromVarRef graph u).isSome → u ∉ A →
      priorAt graph u number_of_registers = sumStrengths (linksAt graph u) := by
  induction h with
  | init L =>
    intro u _ _
    rw [generate_priorAt, generate_linksAt]
    rfl
  | step_link a b s hab hr h ih =>
    intro u hu hN
    obtain ⟨hlinks, hprior, hvalid⟩ := createLink_spec h
    rw [hvalid u] at hu
    have hIH := ih u hu hN
    rw [hlinks u, hprior u number_of_registers, sumStrengths_append, sumStrengths_append, hIH]
    have hba : ¬ (b = a) := fun hc => hab hc.symm
    by_cases hua : u = a
    · by_cases hub : u = b
      · exact absurd (hua.symm.trans hub) hab
      · simp [hua, hub, hab, hba, sumStrengths]
        try ring
    · by_cases hub : u = b
      · simp [hua, hub, hab, hba, sumStrengths]
        try ring
      · simp [hua, hub, sumStrengths]
        try ring
  | @step_alloc g g' A' v r hreg hr h ih =>
    intro u hu hN
    obtain ⟨hns, hcs⟩ := reachableD_inv hr.toReachableD
    have hnsv : ∀ l ∈ linksAt g v, l.«variable» ≠ v := fun l hl => hns v l hl
    obtain ⟨hlinks, hprior, hvalid⟩ := allocateRegisterToVariable_spec h hnsv
    have hune : u ≠ v := fun hc => hN (by rw [hc]; exact List.mem_cons_self v A')
    have huA : u ∉ A' := fun hc => hN (List.mem_cons_of_mem _ hc)
    rw [hvalid u] at hu
    have hIH := ih u hu huA
    have hrne : ¬ (number_of_registers = r) := fun hc => by omega
    rw [hlinks u, hprior u number_of_registers, if_neg hrne, if_pos rfl, if_neg hune]
    by_cases hmem : u ∈ targetsOf (linksAt g v)
    · rw [if_pos hmem, sumStrengths_removeLinksTo, hIH, sumStrengthsTo_comm hcs v u]
      ring
    · rw [if_neg hmem, hIH, sumStrengthsTo_eq_zero hmem]
      ring

/-! ### Ordered-dict construction with distinct names -/

theorem dictGet?_dictSet {α : Type} :
    ∀ (d : List (String × α)) (k k' : String) (v : α),
      dictGet? (dictSet d k v) k' = if k = k' then some v else dictGet? d k' := by
  intro d
  induction d with
  | nil =>
    intro k k' v
    simp [dictSet, dictGet?]
  | cons kv0 d ih =>
    intro k k' v
    obtain ⟨k0, v0⟩ := kv0
    by_cases h0 : k0 = k
    · subst h0
      by_cases h1 : k0 = k'
      · subst h1; simp [dictSet, dictGet?]
      · simp [dictSet, dictGet?, h1]
    · by_cases h1 : k0 = k'
      · subst h1
        have : ¬ k = k0 := fun hc => h0 hc.symm
        simp [dictSet, dictGet?, h0, this]
      · simp [dictSet, dictGet?, h0, h1, ih]

theorem dictSet_eq_append {α : Type} :
    ∀ (d : List (String × α)) (k : String) (v : α),
      dictGet? d k = none → dictSet d k v = d ++ [(k, v)] := by
  intro d
  induction d with
  | nil => intro k v _; rfl
  | cons kv0 d ih =>
    intro k v h
    obtain ⟨k0, v0⟩ := kv0
    by_cases h0 : k0 = k
    · rw [dictGet?, if_pos h0] at h
      cases h
    · rw [dictGet?, if_neg h0] at h
      rw [dictSet, if_neg h0, ih k v h]
      rfl

theorem generate_foldl_eq {c : registerPrioratiesAndLinks} :
    ∀ (names : List String) (acc : List (String × registerPrioratiesAndLinks)),
      names.Nodup → (∀ n ∈ names, dictGet? acc n = none) →
      names.foldl (fun d v => dictSet d v c) acc = acc ++ names.map (fun n => (n, c)) := by
  intro names
  induction names with
  | nil => intro acc _ _; simp
  | cons n names ih =>
    intro acc hnd hnone
    have hn : dictGet? acc n = none := hnone n (List.mem_cons_self _ _)
    have hrest : ∀ m ∈ names, dictGet? (dictSet acc n c) m = none := by
      intro m hm
      rw [dictGet?_dictSet, if_neg, hnone m (List.mem_cons_of_mem _ hm)]
      exact fun hc => (List.nodup_cons.mp hnd).1 (hc ▸ hm)
    calc (n :: names).foldl (fun d v => dictSet d v c) acc
        = names.foldl (fun d v => dictSet d v c) (dictSet acc n c) := rfl
      _ = dictSet acc n c ++ names.map (fun m => (m, c)) :=
          ih _ (List.nodup_cons.mp hnd).2 hrest
      _ = acc ++ (n :: names).map (fun m => (m, c)) := by
          rw [dictSet_eq_append acc n c hn]
          simp

/-! ### convertToType and the scripted scene -/

/-- A Python value as `convertToType` observes it: an identity plus the
name of its runtime type (`manim.Text`, `float`, ...). -/
structure pyObject where
  typeName : String
  objectId : Nat
deriving DecidableEq

/-- Source check `isinstance(instance, target_type)` on the type-tag model. -/
def isinstance (inst : pyObject) (targetType : String) : Bool :=
  inst.typeName == targetType

/-- Source function `convertToType(instance, target_type)`: raises an `AssertionError`
("Expected ...") unless the instance is of the target type, otherwise
returns the instance unchanged. -/
def convertToType (inst : pyObject) (targetType : String) : Except String pyObject :=
  if !(isinstance inst targetType) then
    Except.error ("Expected " ++ targetType)
  else
    Except.ok inst

/-- Source function `pipe(data, *funcs)`. -/
def pipe {α : Type} (data : α) (funcs : List (α → α)) : α :=
  funcs.foldl (fun d f => f d) data

/-- The data side of `DefaultTemplate.construct`: tables
`[index]` and `[index, number]`, two links, one allocation, composed with
`pipe`; the partial steps are sequenced with `Option.bind` (a `none`
anywhere models the Python script dying with an exception). -/
def DefaultTemplate_construct : Option registerAllocationGraph :=
  pipe (some (generateRegisterAllocationGraph [["index"], ["index", "number"]]))
    [fun g => g.bind (createLink ⟨0, "index"⟩ ⟨1, "number"⟩ 1),
     fun g => g.bind (createLink ⟨0, "index"⟩ ⟨1, "index"⟩ 1),
     fun g => g.bind (allocateRegisterToVariable ⟨1, "index"⟩ 1)]

/-! ### iterateToSolution -/

/-- Midpoint `math.ceil((min + max) / 2)` on integers (`/` is exact in Python here
before `ceil`); `Int` division by a positive constant is floor division,
so the ceiling is `(a + 1) / 2`. -/
def ceilHalf (a : Int) : Int := (a + 1) / 2

/-- The `while True` bisection loop of `iterateToSolution`.  The float
comparison `value > goal` is abstracted into the `Bool` component of
`func`; the second component is the auxiliary output returned with the
final input.  `fuel` bounds the rounds, since the loop has no syntactic
termination measure; `claim10…` below shows `(max - min) + 1` rounds
always suffice when `min ≤ max`. -/
def iterLoop {β : Type} (func : Int → Bool × β) :
    Nat → Int → Int → Int → Option (Int × β)
  | 0, _, _, _ => none
  | fuel + 1, min, max, input =>
    let res := func input
    let min' := if res.1 then min else input
    let max' := if res.1 then input else max
    let newInput := ceilHalf (min' + max')
    if input = newInput then some (input, res.2)
    else iterLoop func fuel min' max' newInput

/-- Source function `iterateToSolution(goal, min, max, func)` evaluates the loop from the
initial midpoint. -/
def iterateToSolution {β : Type} (func : Int → Bool × β) (fuel : Nat) (min max : Int) :
    Option (Int × β) :=
  iterLoop func fuel min max (ceilHalf (min + max))

theorem ceilHalf_bounds (s : Int) : s ≤ 2 * ceilHalf s ∧ 2 * ceilHalf s ≤ s + 1 := by
  unfold ceilHalf
  omega

theorem iterLoop_isSome {β : Type} (func : Int → Bool × β) :
    ∀ (fuel : Nat) (min max input : Int), min ≤ max → input = ceilHalf (min + max) →
      (max - min).toNat < fuel → (iterLoop func fuel min max input).isSome := by
  intro fuel
  induction fuel with
  | zero =>
    intro min max input _ _ hfuel
    exact absurd hfuel (Nat.not_lt_zero _)
  | succ fuel ih =>
    intro min max input hle hin hfuel
    have hb1 := ceilHalf_bounds (min + max)
    rw [← hin] at hb1
    rcases hfq : func input with ⟨p, out⟩
    simp only [iterLoop, hfq]
    cases p with
    | true =>
      have hb2 := ceilHalf_bounds (min + input)
      simp only [if_true]
      by_cases hstop : input = ceilHalf (min + input)
      · rw [if_pos hstop]
        rfl
      · rw [if_neg hstop]
        exact ih min input (ceilHalf (min + input)) (by omega) rfl (by omega)
    | false =>
      have hb2 := ceilHalf_bounds (input + max)
      simp only [Bool.false_eq_true, if_false]
      by_cases hstop : input = ceilHalf (input + max)
      · rw [if_pos hstop]
        rfl
      · rw [if_neg hstop]
        exact ih input max (ceilHalf (input + max)) (by omega) rfl (by omega)

/-! ## The claims -/

/-! ### C1 -/

/-- A graph whose single variable `a` links to itself twice (the state
`createLink(a, a, 1)` produces, priorities included). -/
def c1cexGraph : registerAllocationGraph :=
  ⟨[⟨[("a", ⟨[⟨⟨0, "a"⟩, 1⟩, ⟨⟨0, "a"⟩, 1⟩], [0, 0, 0, 0, 2]⟩)]⟩]⟩

def c1cexResult : registerAllocationGraph :=
  (allocateRegisterToVariable ⟨0, "a"⟩ 0 c1cexGraph).getD ⟨[]⟩

/-- Claim C1 counterexample: for the self-linked graph above, `var = a` is
valid and `r = 0` is in range, yet `allocateRegisterToVariable(a, 0)`
increases `a`'s priority for `r0` by `1`, not by the total strength `2` of
`a`'s two links to itself: deleting the processed self-link from the live
list makes the loop skip the second link. -/
theorem claim1_counterexample :
    (getRowFromVarRef c1cexGraph ⟨0, "a"⟩).isSome
    ∧ (0 : Nat) < number_of_registers
    ∧ allocateRegisterToVariable ⟨0, "a"⟩ 0 c1cexGraph = some c1cexResult
    ∧ sumStrengthsTo (linksAt c1cexGraph ⟨0, "a"⟩) ⟨0, "a"⟩ = 2
    ∧ priorAt c1cexResult ⟨0, "a"⟩ 0 ≠
        priorAt c1cexGraph ⟨0, "a"⟩ 0 +
          sumStrengthsTo (linksAt c1cexGraph ⟨0, "a"⟩) ⟨0, "a"⟩ := by
  decide

/-- Claim C1 (amended): if additionally no link of `var` references `var`
itself, a successful `allocateRegisterToVariable(var, r)` with
`0 ≤ r < number_of_registers` increases, for every reference `w`, `w`'s
stored priority for register `r` by the summed strength of `var`'s links
to `w` (each link folded once). -/
theorem claim1_allocate_folds_linked_strengths {graph g' : registerAllocationGraph}
    {var : variableReference} {register : Nat}
    (_hvalid : (getRowFromVarRef graph var).isSome)
    (hreg : register < number_of_registers)
    (hns : ∀ l ∈ linksAt graph var, l.«variable» ≠ var)
    (h : allocateRegisterToVariable var register graph = some g') :
    ∀ w, priorAt g' w register =
      priorAt graph w register + sumStrengthsTo (linksAt graph var) w := by
  intro w
  obtain ⟨_, hprior, _⟩ := allocateRegisterToVariable_spec h hns
  rw [hprior w register, if_pos rfl,
    if_neg (by omega : ¬ register = number_of_registers)]
  ring

/-- A two-variable graph with one symmetric link `a — b` of strength 2. -/
def c1wGraph : registerAllocationGraph :=
  ⟨[⟨[("a", ⟨[⟨⟨0, "b"⟩, 2⟩], [0, 0, 0, 0, 2]⟩),
      ("b", ⟨[⟨⟨0, "a"⟩, 2⟩], [0, 0, 0, 0, 2]⟩)]⟩]⟩

def c1wResult : registerAllocationGraph :=
  (allocateRegisterToVariable ⟨0, "a"⟩ 0 c1wGraph).getD ⟨[]⟩

theorem claim1_witness :
    priorAt c1wResult ⟨0, "b"⟩ 0 =
      priorAt c1wGraph ⟨0, "b"⟩ 0 + sumStrengthsTo (linksAt c1wGraph ⟨0, "a"⟩) ⟨0, "b"⟩ :=
  claim1_allocate_folds_linked_strengths (by decide) (by decide) (by decide) (by decide) ⟨0, "b"⟩

/-! ### C2 -/

/-- Claim C2: a successful `createLink(a, b, s)` adds `s` to the Unknown
column (index `number_of_registers`) of each endpoint — when `a = b` the
two additions land on the same cell — and appends the two link records. -/
theorem claim2_createLink_unknown_column {fromVar toVar : variableReference} {s : Int}
    {graph g' : registerAllocationGraph}
    (h : createLink fromVar toVar s graph = some g') :
    (∀ u, priorAt g' u number_of_registers = priorAt graph u number_of_registers
        + (if u = fromVar then s else 0) + (if u = toVar then s else 0))
    ∧ (∀ u, linksAt g' u = linksAt graph u
        ++ (if u = fromVar then [⟨toVar, s⟩] else [])
        ++ (if u = toVar then [⟨fromVar, s⟩] else [])) := by
  obtain ⟨hlinks, hprior, _⟩ := createLink_spec h
  refine ⟨fun u => ?_, hlinks⟩
  rw [hprior u number_of_registers]
  by_cases h1 : u = fromVar <;> by_cases h2 : u = toVar <;> simp [h1, h2]

def c2wGraph : registerAllocationGraph :=
  generateRegisterAllocationGraph [["a", "b"]]

def c2wResult : registerAllocationGraph :=
  (createLink ⟨0, "a"⟩ ⟨0, "b"⟩ 3 c2wGraph).getD ⟨[]⟩

theorem claim2_witness :
    priorAt c2wResult ⟨0, "a"⟩ number_of_registers =
      priorAt c2wGraph ⟨0, "a"⟩ number_of_registers
        + (if (⟨0, "a"⟩ : variableReference) = ⟨0, "a"⟩ then 3 else 0)
        + (if (⟨0, "a"⟩ : variableReference) = ⟨0, "b"⟩ then 3 else 0) :=
  (claim2_createLink_unknown_column (by decide)).1 ⟨0, "a"⟩

/-! ### C3 -/

/-- An asymmetric graph: `u` stores a link to `v` but `v` stores none. -/
def c3cexGraph : registerAllocationGraph :=
  ⟨[⟨[("v", ⟨[], [0, 0, 0, 0, 0]⟩),
      ("u", ⟨[⟨⟨0, "v"⟩, 1⟩], [0, 0, 0, 0, 1]⟩)]⟩]⟩

def c3cexResult : registerAllocationGraph :=
  (allocateRegisterToVariable ⟨0, "v"⟩ 0 c3cexGraph).getD ⟨[]⟩

/-- Claim C3 counterexample: `v` is valid in the asymmetric graph above,
`allocateRegisterToVariable(v, 0)` succeeds, yet `u` retains its link
referencing `v` afterwards — the loop only visits targets of `v`'s own
links, so a link to `v` with no mate on `v`'s row is never deleted. -/
theorem claim3_counterexample :
    (getRowFromVarRef c3cexGraph ⟨0, "v"⟩).isSome
    ∧ allocateRegisterToVariable ⟨0, "v"⟩ 0 c3cexGraph = some c3cexResult
    ∧ (⟨⟨0, "v"⟩, 1⟩ : variableLink) ∈ linksAt c3cexResult ⟨0, "u"⟩ := by
  decide

/-- Claim C3 (amended): if the graph's links are symmetric (`LinkSymOn`,
as in every state reachable without self-link creation) and no link of
`var` references `var` itself, then after a successful
`allocateRegisterToVariable(var, r)` `var`'s link list is empty and no
variable in any table retains a link whose target equals `var`. -/
theorem claim3_allocate_deletes_links {graph g' : registerAllocationGraph}
    {var : variableReference} {register : Nat}
    (hsym : LinkSymOn graph)
    (hns : ∀ l ∈ linksAt graph var, l.«variable» ≠ var)
    (h : allocateRegisterToVariable var register graph = some g') :
    linksAt g' var = [] ∧ ∀ u, ∀ l ∈ linksAt g' u, l.«variable» ≠ var := by
  obtain ⟨hlinks, _, _⟩ := allocateRegisterToVariable_spec h hns
  have hsym' := (linkSymOn_iff graph).mp hsym
  constructor
  · rw [hlinks var, if_pos rfl]
  · intro u l hl
    rw [hlinks u] at hl
    by_cases hu : u = var
    · rw [if_pos hu] at hl
      simp at hl
    · rw [if_neg hu] at hl
      by_cases hmem : u ∈ targetsOf (linksAt graph var)
      · rw [if_pos hmem] at hl
        have hkeep := (List.mem_filter.mp hl).2
        intro hc
        rw [hc] at hkeep
        simp at hkeep
      · rw [if_neg hmem] at hl
        intro hc
        have hmate := hsym' u l hl
        rw [hc] at hmate
        exact hmem (List.mem_map_of_mem (fun l => l.«variable») hmate)

def c3wGraph : registerAllocationGraph :=
  ⟨[⟨[("a", ⟨[⟨⟨0, "b"⟩, 2⟩], [0, 0, 0, 0, 2]⟩),
      ("b", ⟨[⟨⟨0, "a"⟩, 2⟩], [0, 0, 0, 0, 2]⟩)]⟩]⟩

def c3wResult : registerAllocationGraph :=
  (allocateRegisterToVariable ⟨0, "a"⟩ 1 c3wGraph).getD ⟨[]⟩

theorem claim3_witness : linksAt c3wResult ⟨0, "a"⟩ = [] :=
  (@claim3_allocate_deletes_links c3wGraph c3wResult ⟨0, "a"⟩ 1
    (by decide) (by decide) (by decide)).1

/-! ### C4 -/

def c4g0 : registerAllocationGraph := generateRegisterAllocationGraph [["a", "w"]]

def c4g1 : registerAllocationGraph := (createLink ⟨0, "a"⟩ ⟨0, "a"⟩ 1 c4g0).getD ⟨[]⟩

def c4g2 : registerAllocationGraph := (createLink ⟨0, "a"⟩ ⟨0, "w"⟩ 2 c4g1).getD ⟨[]⟩

def c4g3 : registerAllocationGraph :=
  (allocateRegisterToVariable ⟨0, "a"⟩ 0 c4g2).getD ⟨[]⟩

/-- Claim C4 counterexample: the state reached by
`createLink(a, a, 1); createLink(a, w, 2); allocateRegisterToVariable(a, 0)`
on a fresh two-variable table (all steps on valid references) is not
link-symmetric: `w` still stores `⟨a, 2⟩` while `a`'s link list is empty,
because the in-place deletion of `a`'s self-links made the loop exit
before processing the link to `w`. -/
theorem claim4_counterexample : Reachable c4g3 ∧ ¬ LinkSym c4g3 := by
  constructor
  · have h1 : Reachable c4g1 :=
      Reachable.step_link ⟨0, "a"⟩ ⟨0, "a"⟩ 1 (Reachable.init [["a", "w"]]) (by decide)
    have h2 : Reachable c4g2 := Reachable.step_link ⟨0, "a"⟩ ⟨0, "w"⟩ 2 h1 (by decide)
    exact Reachable.step_alloc ⟨0, "a"⟩ 0 h2 (by decide)
  · intro hsym
    have := hsym ⟨0, "w"⟩ ⟨⟨0, "a"⟩, 2⟩ (by decide)
    exact absurd this (by decide)

/-- Claim C4 (amended): links are undirected in every state reachable from
a fresh graph by `createLink` steps on *distinct* valid references and
arbitrary `allocateRegisterToVariable` steps: whenever `u`'s link list
contains a link of strength `s` to `w`, `w`'s link list contains a link of
strength `s` to `u`. -/
theorem claim4_links_undirected {graph : registerAllocationGraph} (h : ReachableD graph) :
    LinkSym graph :=
  LinkSym_of_CountSym (reachableD_inv h).2

theorem claim4_witness : LinkSym (generateRegisterAllocationGraph [["x"]]) :=
  claim4_links_undirected (ReachableD.init [["x"]])

/-! ### C5 -/

def c5g0 : registerAllocationGraph := generateRegisterAllocationGraph [["v", "u"]]

def c5g1 : registerAllocationGraph := (createLink ⟨0, "v"⟩ ⟨0, "u"⟩ 1 c5g0).getD ⟨[]⟩

def c5g2 : registerAllocationGraph := (createLink ⟨0, "v"⟩ ⟨0, "v"⟩ 1 c5g1).getD ⟨[]⟩

def c5g3 : registerAllocationGraph := (createLink ⟨0, "v"⟩ ⟨0, "u"⟩ 1 c5g2).getD ⟨[]⟩

def c5g4 : registerAllocationGraph :=
  (allocateRegisterToVariable ⟨0, "v"⟩ 0 c5g3).getD ⟨[]⟩

/-- Claim C5 counterexample: after
`createLink(v, u, 1); createLink(v, v, 1); createLink(v, u, 1);
allocateRegisterToVariable(v, 0)` on a fresh two-variable table, `u` was
never allocated, yet its Unknown entry is `1` while its link list is empty
(sum `0`): the self-link deletion made the loop skip `v`'s second link to
`u`, whose strength was removed from `u`'s links but not from its Unknown
column. -/
theorem claim5_counterexample :
    ReachesAlloc c5g4 [⟨0, "v"⟩]
    ∧ (getRowFromVarRef c5g4 ⟨0, "u"⟩).isSome
    ∧ (⟨0, "u"⟩ : variableReference) ∉ [(⟨0, "v"⟩ : variableReference)]
    ∧ priorAt c5g4 ⟨0, "u"⟩ number_of_registers ≠ sumStrengths (linksAt c5g4 ⟨0, "u"⟩) := by
  refine ⟨?_, by decide, by decide, by decide⟩
  have h1 : ReachesAlloc c5g1 [] :=
    ReachesAlloc.step_link ⟨0, "v"⟩ ⟨0, "u"⟩ 1 (ReachesAlloc.init [["v", "u"]]) (by decide)
  have h2 : ReachesAlloc c5g2 [] :=
    ReachesAlloc.step_link ⟨0, "v"⟩ ⟨0, "v"⟩ 1 h1 (by decide)
  have h3 : ReachesAlloc c5g3 [] :=
    ReachesAlloc.step_link ⟨0, "v"⟩ ⟨0, "u"⟩ 1 h2 (by decide)
  exact ReachesAlloc.step_alloc ⟨0, "v"⟩ 0 h3 (by decide)

/-- Claim C5 (amended): along reachability whose `createLink` steps join
*distinct* references and whose allocations use an actual register column
(`r < number_of_registers`), every valid variable that has never been the
subject of an allocation has its Unknown entry equal to the summed
strength of its current links. -/
theorem claim5_unknown_tracks_links {graph : registerAllocationGraph}
    {A : List variableReference} (h : ReachesAllocD graph A) :
    ∀ u, (getRowFromVarRef graph u).isSome → u ∉ A →
      priorAt graph u number_of_registers = sumStrengths (linksAt graph u) :=
  reachesAllocD_unknown h

theorem claim5_witness :
    priorAt (generateRegisterAllocationGraph [["x"]]) ⟨0, "x"⟩ number_of_registers =
      sumStrengths (linksAt (generateRegisterAllocationGraph [["x"]]) ⟨0, "x"⟩) :=
  claim5_unknown_tracks_links (ReachesAllocD.init [["x"]]) ⟨0, "x"⟩ (by decide) (by decide)

/-! ### C6 -/

/-- Claim C6: `convertToType` returns the instance unchanged exactly when
it is of the target type and raises the `AssertionError` otherwise; and no
other operation raises on the program's own (valid) inputs — the whole
scripted scene runs to completion with every lookup succeeding. -/
theorem claim6_convertToType_only_error :
    (∀ inst T, isinstance inst T = true → convertToType inst T = Except.ok inst)
    ∧ (∀ inst T, isinstance inst T = false →
        convertToType inst T = Except.error ("Expected " ++ T))
    ∧ DefaultTemplate_construct.isSome = true := by
  refine ⟨fun inst T h => ?_, fun inst T h => ?_, rfl⟩
  · simp [convertToType, h]
  · simp [convertToType, h]

theorem claim6_witness :
    convertToType ⟨"Text", 0⟩ "Text" = Except.ok ⟨"Text", 0⟩
    ∧ convertToType ⟨"float", 1⟩ "Text" = Except.error ("Expected " ++ "Text") :=
  ⟨claim6_convertToType_only_error.1 ⟨"Text", 0⟩ "Text" (by decide),
   claim6_convertToType_only_error.2.1 ⟨"float", 1⟩ "Text" (by decide)⟩

/-! ### C7 -/

/-- A malformed graph: variable `a` exists but its priority list is empty. -/
def c7cexGraph : registerAllocationGraph := ⟨[⟨[("a", ⟨[], []⟩)]⟩]⟩

/-- Claim C7 counterexample: the claim's stated preconditions (table index
in range, name present, `0 ≤ register ≤ number_of_registers`) hold for
this graph, yet `getCellFromVarRefAndRegister` fails: they do not bound
the row's priority list, whose length the lookup also needs. -/
theorem claim7_counterexample :
    c7cexGraph.tables[(0 : Nat)]? = some ⟨[("a", ⟨[], []⟩)]⟩
    ∧ (dictGet? [("a", (⟨[], []⟩ : registerPrioratiesAndLinks))] "a").isSome
    ∧ (0 : Nat) ≤ number_of_registers
    ∧ getCellFromVarRefAndRegister c7cexGraph ⟨0, "a"⟩ 0 = none := by
  decide

/-- Claim C7 (amended): when the table index is in range, the variable
name is a key of that table, `register ≤ number_of_registers`, and the
row's priority list has length `number_of_registers + 1` (as every table
the program builds does), all lookups of `getRowFromVarRef`,
`getCellFromVarRefAndRegister` and `addToTableCell` succeed. -/
theorem claim7_lookups_in_range {graph : registerAllocationGraph}
    {varRef : variableReference} {table : registerAllocationTable}
    {row : registerPrioratiesAndLinks} {register : Nat}
    (h1 : graph.tables[varRef.indexOfRegisterAllocationTable]? = some table)
    (h2 : dictGet? table.data varRef.nameOfVariableWithinTable = some row)
    (h3 : register ≤ number_of_registers)
    (h4 : row.prioraties.length = number_of_registers + 1) :
    (getRowFromVarRef graph varRef).isSome
    ∧ (getCellFromVarRefAndRegister graph varRef register).isSome
    ∧ ∀ added, (addToTableCell graph varRef register added).isSome := by
  have hrow : getRowFromVarRef graph varRef = some row := by
    simp [getRowFromVarRef, h1, h2]
  have hlt : register < row.prioraties.length := by omega
  have hp := List.getElem?_eq_getElem hlt
  exact ⟨by simp [hrow], by simp [getCellFromVarRefAndRegister, hrow, hp],
    fun added => addToTableCell_isSome hrow hlt added⟩

def c7wGraph : registerAllocationGraph := generateRegisterAllocationGraph [["a"]]

theorem claim7_witness : (getCellFromVarRefAndRegister c7wGraph ⟨0, "a"⟩ 4).isSome :=
  (@claim7_lookups_in_range c7wGraph ⟨0, "a"⟩ ⟨[("a", { links := [] })]⟩ { links := [] } 4
    (by decide) (by decide) (by decide) (by decide)).2.1

/-! ### C8 -/

/-- Claim C8: for distinct variable names, `generateRegisterAllocationTable`
produces the ordered mapping taking each name, in the given order, to an
empty link list and the all-zero priority list of length
`number_of_registers + 1`. -/
theorem claim8_generate_table («variables» : List String) (h : «variables».Nodup) :
    (generateRegisterAllocationTable «variables»).data =
      «variables».map (fun v =>
        (v, { links := [],
              prioraties := List.replicate (number_of_registers + 1) 0 })) := by
  unfold generateRegisterAllocationTable
  rw [generate_foldl_eq «variables» [] h (fun n _ => rfl)]
  rfl

theorem claim8_witness :
    (generateRegisterAllocationTable ["a", "b"]).data =
      ["a", "b"].map (fun v =>
        (v, { links := [],
              prioraties := List.replicate (number_of_registers + 1) 0 })) :=
  claim8_generate_table ["a", "b"] (by decide)

/-! ### C9 -/

/-- Claim C9: the helper `filter(l, func)` removes exactly the elements on
which `func` is true — the opposite convention of keeping them — and the
kept elements stay in their original relative order (the in-place
mutation-and-return of the Python list is embedded as returning the final
list). -/
theorem claim9_filter_removes_matching {α : Type} (l : List α) (func : α → Bool) :
    filter l func = List.filter (fun a => !(func a)) l :=
  filter_eq_filter_not l func

/-! ### C10 -/

/-- Claim C10: for integer `min ≤ max` and any total `func`, the bisection
loop of `iterateToSolution` terminates — `(max - min) + 1` rounds always
reach a state where the new midpoint repeats the previous one. -/
theorem claim10_iterateToSolution_terminates {β : Type} (func : Int → Bool × β)
    (min max : Int) (h : min ≤ max) :
    (iterateToSolution func ((max - min).toNat + 1) min max).isSome :=
  iterLoop_isSome func ((max - min).toNat + 1) min max (ceilHalf (min + max)) h rfl
    (by omega)

theorem claim10_witness :
    (iterateToSolution (fun i => (decide (2 < i), i)) (((7 : Int) - 0).toNat + 1) 0 7).isSome :=
  claim10_iterateToSolution_terminates (fun i => (decide (2 < i), i)) 0 7 (by decide)

end RegAlloc
